import Mathlib

/-!
VoiceClone: verification of the audio-generation core against its
natural-language specification.

Shallow embedding of the VoiceClone repository's audio pipeline:

* the frontend client (`src/frontend/src/lib/api/client.ts`,
  `src/frontend/src/types/audio.ts`, and the `AudioSettings` component's
  status-polling loop) is embedded directly from the TypeScript source;
* the backend core (Chunker, Embedding Cache, Task Orchestrator) is not part
  of the observed sources, so those components are modelled from the spec
  (each such definition carries a doc comment starting `Modelled from the
  spec:`).
-/

namespace VoiceClone

/-! Frontend: task status type (src/frontend/src/types/audio.ts).

`AudioGenerationTask.status` is the TypeScript string-literal union
`'pending' | 'processing' | 'completed' | 'failed'`. -/

/-- The exact set of status strings admitted by the frontend type
`AudioGenerationTask.status` in `src/frontend/src/types/audio.ts`
(lines 17–26). -/
def audioTaskStatusValues : List String :=
  ["pending", "processing", "completed", "failed"]

/-! Frontend: API client endpoints (src/frontend/src/lib/api/client.ts).

Each exported function of the API client performs exactly one `fetch`
against `API_URL ++ path`.  We record name, HTTP method and path template
(`{x}` marks an interpolated argument). -/

structure Endpoint where
  name : String
  method : String
  path : String
  deriving DecidableEq, Repr

/-- The exported endpoint functions of `src/frontend/src/lib/api/client.ts`,
in source order, with the HTTP method and URL path each one fetches. -/
def apiClientEndpoints : List Endpoint :=
  [ ⟨"generateStory", "POST", "/api/v1/story/generate"⟩,
    ⟨"updateStory", "PUT", "/api/v1/story/{storyId}/edit"⟩,
    ⟨"improveStoryWithAI", "POST", "/api/v1/story/ai-improve"⟩,
    ⟨"generateAudio", "POST", "/api/v1/tts/generate"⟩,
    ⟨"getTaskStatus", "GET", "/api/v1/tts/status/{taskId}"⟩,
    ⟨"uploadVoiceSample", "POST", "/api/v1/voice/upload"⟩,
    ⟨"getVoiceLibrary", "GET", "/api/v1/voice/library"⟩,
    ⟨"getDefaultVoice", "GET", "/api/v1/voice/default"⟩,
    ⟨"setDefaultVoice", "POST", "/api/v1/voice/set-default/{voiceId}"⟩,
    ⟨"deleteVoice", "DELETE", "/api/v1/voice/{voiceId}"⟩ ]

/-! Frontend: the `AudioSettings` polling loop (`pollStatus`).

`pollStatus` (AudioSettings component, lines 196–241) reads one status
response and updates the React state; unless the reported status is
`completed` or `failed` it re-schedules itself with
`setTimeout(pollStatus, 1000)`. -/

/-- One JSON status response as consumed by `pollStatus`: the fields the
loop reads (`status`, `progress`, `message`, `audio_url`, `error`).
Optional fields model `undefined`. -/
structure StatusResponse where
  status : String
  progress : Option Nat
  message : Option String
  audio_url : Option String
  error : Option String
  deriving DecidableEq, Repr

/-- The component state touched by the generation flow: the React state
variables of `AudioSettings` plus whether a next poll is scheduled
(`pollingTimeoutRef` holding a pending timeout). -/
structure ClientState where
  progress : Nat
  progressMessage : String
  audioUrl : Option String
  error : Option String
  isGenerating : Bool
  pollScheduled : Bool
  deriving DecidableEq, Repr

/-- Embedding of JavaScript's `String.prototype.startsWith`: the candidate
prefix compared character-by-character against the start of the string. -/
def strStartsWith (s pre : String) : Bool :=
  pre.data.isPrefixOf s.data

/-- URL resolution on completion (AudioSettings lines 211–213):
`status.audio_url?.startsWith('http') ? status.audio_url : API_URL + status.audio_url`.
When `audio_url` is `undefined`, optional chaining yields a falsy value and
the template literal stringifies `undefined`. -/
def resolveAudioUrl (apiUrl : String) : Option String → String
  | some u => if strStartsWith u "http" then u else apiUrl ++ u
  | none => apiUrl ++ "undefined"

/-- One iteration of `pollStatus` on a successfully fetched status response
(AudioSettings lines 196–239): updates progress and message, then branches
on `status === 'completed'`, `status === 'failed'`, and otherwise
re-schedules the poll after 1 second. -/
def pollStep (apiUrl : String) (s : ClientState) (r : StatusResponse) : ClientState :=
  let s := { s with progress := r.progress.getD 0,
                    progressMessage := r.message.getD "Processing..." }
  if r.status = "completed" then
    { s with audioUrl := some (resolveAudioUrl apiUrl r.audio_url),
             isGenerating := false, pollScheduled := false }
  else if r.status = "failed" then
    { s with error := some (r.error.getD "Audio generation failed"),
             isGenerating := false, pollScheduled := false }
  else
    { s with pollScheduled := true }

/-- Embedding of `handleCancelGeneration` (AudioSettings lines 248–258): clears the
polling timeout and resets local state.  It returns the new component state
together with the list of network requests it issues — the body performs no
fetch, so that list is built empty, mirroring the source. -/
def handleCancelGeneration (s : ClientState) : ClientState × List Endpoint :=
  ({ s with pollScheduled := false, isGenerating := false,
            progress := 0, progressMessage := "" }, [])

/-- The client state at the start of a generation run (`handleGenerateAudio`
lines 177–181 set `isGenerating`, clear the error, zero the progress). -/
def startState : ClientState :=
  { progress := 0, progressMessage := "", audioUrl := none, error := none,
    isGenerating := true, pollScheduled := false }

/-! Chunker.  The backend text segmentation module (`text_processor.py` per
the repository README) is not among the observed sources, so the Chunker is
modelled from the spec (§4.1, §8). -/

/-- Modelled from the spec: whitespace as understood by the Chunker when it
looks for "the nearest whitespace before the length limit" (§4.1). -/
def isSpaceChar (c : Char) : Bool :=
  c = ' ' || c = '\n' || c = '\t' || c = '\r'

/-- Modelled from the spec: a non-whitespace character, i.e. a character
that belongs to a word. -/
def notSpace (c : Char) : Bool := !(isSpaceChar c)

/-- Modelled from the spec: the word sequence of a text — maximal runs of
non-whitespace characters, in order (§8 speaks of "the original word
sequence"). -/
def wordsOf : List Char → List (List Char)
  | [] => []
  | [c] => if isSpaceChar c then [] else [[c]]
  | c :: d :: cs =>
    if isSpaceChar c then wordsOf (d :: cs)
    else if isSpaceChar d then [c] :: wordsOf (d :: cs)
    else
      match wordsOf (d :: cs) with
      | [] => [[c]]
      | w :: ws => (c :: w) :: ws

/-- Modelled from the spec: rendering of one chunk from its words, joined by
single spaces (the Chunker "must not split inside a word", so a chunk is a
whole number of words). -/
def joinSp : List (List Char) → List Char
  | [] => []
  | [w] => w
  | w :: w' :: ws => w ++ ' ' :: joinSp (w' :: ws)

/-- Modelled from the spec: character length of a chunk made of the given
words once joined by single spaces. -/
def joinLen (c : List (List Char)) : Nat :=
  (c.map List.length).sum + (c.length - 1)

/-- Modelled from the spec: greedy packing of the word sequence into chunks
bounded by `maxC` characters.  `cur` is the current chunk under construction
(most recent word first) and `curLen` its rendered length.  A word is added
to the current chunk only when the chunk stays within the limit; otherwise
the chunk is emitted and a fresh chunk starts.  A single word longer than
the limit therefore becomes a chunk of its own — the "unavoidable
single-oversized-word case" of §8 (per §8 the word itself is never split,
which is how the model reconciles §4.1's "must not split inside a word"
with its forward-progress remark). -/
def packAux (maxC : Nat) (cur : List (List Char)) (curLen : Nat) :
    List (List Char) → List (List (List Char))
  | [] => [cur.reverse]
  | w :: ws =>
    if curLen + 1 + w.length ≤ maxC then
      packAux maxC (w :: cur) (curLen + 1 + w.length) ws
    else
      cur.reverse :: packAux maxC [w] w.length ws

/-- Modelled from the spec: packing a whole word sequence into chunks. -/
def packWords (maxC : Nat) : List (List Char) → List (List (List Char))
  | [] => []
  | w :: ws => packAux maxC [w] w.length ws

/-- Modelled from the spec: `Chunker.split(text, maxChunkChars)` (§4.1).
Splits the text into its words and greedily packs them into chunks of at
most `maxChunkChars` characters (sentence-boundary preference only selects
among the split points admissible here and does not affect the properties
claimed of the Chunker).  Empty input yields the empty sequence; non-empty
input yields a non-empty sequence — per §4.1's explicit requirement, a
non-empty text with no words at all (only whitespace) yields one empty
chunk. -/
def split (text : List Char) (maxChunkChars : Nat) : List (List Char) :=
  if text = [] then []
  else
    match wordsOf text with
    | [] => [[]]
    | w :: ws => (packWords maxChunkChars (w :: ws)).map joinSp

/-- Modelled from the spec: a chunk is well-formed for limit `maxC` when its
rendered length is within the limit, or it consists of a single word longer
than the limit (§8). -/
def goodChunk (maxC : Nat) (c : List (List Char)) : Prop :=
  joinLen c ≤ maxC ∨ ∃ w, c = [w] ∧ maxC < w.length

/-! Task Orchestrator.  The backend orchestrator is not among the observed
sources; its state machine is modelled from the spec (§3, §4.4, §4.1). -/

/-- Modelled from the spec: ChunkJob state,
`queued | submitted | polling | succeeded | failed` (§3). -/
inductive ChunkState
  | queued
  | submitted
  | polling
  | succeeded
  | failed
  deriving DecidableEq, Repr

/-- Modelled from the spec: NarrationTask status,
`pending | processing | completed | failed | cancelled` (§3). -/
inductive TaskStatus
  | pending
  | processing
  | completed
  | failed
  | cancelled
  deriving DecidableEq, Repr

/-- Modelled from the spec: the orchestrator-visible part of a
NarrationTask — status, the ordered chunk-job states, and the aggregate
progress (§3). -/
structure NarrationTask where
  status : TaskStatus
  chunks : List ChunkState
  progress : ℚ
  deriving DecidableEq, Repr

/-- Modelled from the spec: number of succeeded chunk jobs of a task. -/
def succCount (chunks : List ChunkState) : Nat :=
  chunks.countP fun c => decide (c = ChunkState.succeeded)

/-- Modelled from the spec: aggregate progress
`(succeeded chunk count / total chunk count) × 100` (§4.4). -/
def progressOf (chunks : List ChunkState) : ℚ :=
  100 * (succCount chunks : ℚ) / (chunks.length : ℚ)

/-- Modelled from the spec: a freshly submitted task — `pending`, all `n`
chunk jobs `queued`, zero progress (§3, §4.4). -/
def initTask (n : Nat) : NarrationTask :=
  { status := TaskStatus.pending, chunks := List.replicate n ChunkState.queued,
    progress := 0 }

/-- Modelled from the spec: one transition of the Task Orchestrator's state
machine (§4.4, with §4.1's zero-chunk no-op success and §7's embedding
failure).  Chunk-level transitions happen only while the task is
`processing` (the first dispatch moves `pending` to `processing`), each
chunk terminal transition recomputes the aggregate progress, and all task
terminal states are absorbing: no rule applies to a terminal task. -/
inductive OrchStep : NarrationTask → NarrationTask → Prop
  | dispatchFirst (t : NarrationTask) (i : Nat) :
      t.status = TaskStatus.pending → t.chunks[i]? = some ChunkState.queued →
      OrchStep t ⟨TaskStatus.processing, t.chunks.set i ChunkState.submitted, t.progress⟩
  | dispatchNext (t : NarrationTask) (i : Nat) :
      t.status = TaskStatus.processing → t.chunks[i]? = some ChunkState.queued →
      OrchStep t ⟨TaskStatus.processing, t.chunks.set i ChunkState.submitted, t.progress⟩
  | startPoll (t : NarrationTask) (i : Nat) :
      t.status = TaskStatus.processing → t.chunks[i]? = some ChunkState.submitted →
      OrchStep t ⟨TaskStatus.processing, t.chunks.set i ChunkState.polling, t.progress⟩
  | chunkSucceed (t : NarrationTask) (i : Nat) :
      t.status = TaskStatus.processing → t.chunks[i]? = some ChunkState.polling →
      OrchStep t ⟨TaskStatus.processing, t.chunks.set i ChunkState.succeeded,
        progressOf (t.chunks.set i ChunkState.succeeded)⟩
  | chunkFail (t : NarrationTask) (i : Nat) :
      t.status = TaskStatus.processing → t.chunks[i]? = some ChunkState.polling →
      OrchStep t ⟨TaskStatus.processing, t.chunks.set i ChunkState.failed,
        progressOf (t.chunks.set i ChunkState.failed)⟩
  | complete (t : NarrationTask) :
      t.status = TaskStatus.processing →
      (∀ c ∈ t.chunks, c = ChunkState.succeeded) →
      OrchStep t ⟨TaskStatus.completed, t.chunks, t.progress⟩
  | failTask (t : NarrationTask) :
      t.status = TaskStatus.processing → ChunkState.failed ∈ t.chunks →
      OrchStep t ⟨TaskStatus.failed, t.chunks, t.progress⟩
  | cancel (t : NarrationTask) :
      t.status = TaskStatus.pending ∨ t.status = TaskStatus.processing →
      OrchStep t ⟨TaskStatus.cancelled, t.chunks, t.progress⟩
  | embedFail (t : NarrationTask) :
      t.status = TaskStatus.pending →
      OrchStep t ⟨TaskStatus.failed, t.chunks, t.progress⟩
  | completeEmpty (t : NarrationTask) :
      t.status = TaskStatus.pending → t.chunks = [] →
      OrchStep t ⟨TaskStatus.completed, t.chunks, t.progress⟩

/-- Modelled from the spec: a task state reachable by the orchestrator from
some fresh task. -/
def Reachable (t : NarrationTask) : Prop :=
  ∃ n, Relation.ReflTransGen OrchStep (initTask n) t

/-- Demonstration run endpoint: the completed one-chunk task used to witness
the reachability-based theorems. -/
def demoTask : NarrationTask :=
  ⟨TaskStatus.completed, [ChunkState.succeeded], progressOf [ChunkState.succeeded]⟩

/-! Embedding Cache.  The backend cache is not among the observed sources;
its request-collapsing behaviour is modelled from the spec (§4.2, §9's
key-scoped in-flight-computation registry). -/

/-- Modelled from the spec: state of the Embedding Cache — the
content-addressed store, the key-scoped in-flight registry (waiting caller
ids per key), the number of `computeFn` invocations per key, and the
outcome delivered to each caller. -/
structure CacheState where
  store : String → Option Nat
  inflight : String → Option (List Nat)
  invocations : String → Nat
  results : Nat → Option (Except String Nat)

/-- Modelled from the spec: an atomic cache event — a caller arriving at
`getOrCompute` for a key, the in-flight computation for a key completing
with a value, or it failing with an error. -/
inductive CacheEvent
  | arrive (caller : Nat) (key : String)
  | complete (key : String) (v : Nat)
  | fail (key : String) (e : String)

/-- Modelled from the spec: effect of one cache event (§4.2).  A hit returns
the stored value; a miss while a computation is in flight joins its waiter
list (request collapsing); a fresh miss registers the caller and invokes
`computeFn` (counted per key).  Completion stores the value and delivers it
to every waiter; failure stores nothing and delivers the error to every
waiter; both clear the in-flight registry entry. -/
def cacheStep (s : CacheState) : CacheEvent → CacheState
  | CacheEvent.arrive i k =>
    match s.store k with
    | some v => { s with results := Function.update s.results i (some (Except.ok v)) }
    | none =>
      match s.inflight k with
      | some ws => { s with inflight := Function.update s.inflight k (some (i :: ws)) }
      | none =>
        { s with inflight := Function.update s.inflight k (some [i]),
                 invocations := Function.update s.invocations k (s.invocations k + 1) }
  | CacheEvent.complete k v =>
    match s.inflight k with
    | some ws =>
      { s with store := Function.update s.store k (some v),
               inflight := Function.update s.inflight k none,
               results := fun i => if i ∈ ws then some (Except.ok v) else s.results i }
    | none => s
  | CacheEvent.fail k e =>
    match s.inflight k with
    | some ws =>
      { s with inflight := Function.update s.inflight k none,
               results := fun i => if i ∈ ws then some (Except.error e) else s.results i }
    | none => s

/-- Modelled from the spec: running a sequence of cache events. -/
def cacheRun (s : CacheState) : List CacheEvent → CacheState
  | [] => s
  | e :: es => cacheRun (cacheStep s e) es

/-- Modelled from the spec: the arrival events of a list of callers all
requesting the same key. -/
def arrivalsFor (k : String) (callers : List Nat) : List CacheEvent :=
  callers.map fun i => CacheEvent.arrive i k

/-- Demonstration cache state: empty store, no in-flight computation, no
invocations, no delivered results. -/
def emptyCache : CacheState :=
  ⟨fun _ => none, fun _ => none, fun _ => 0, fun _ => none⟩

/-- Demonstration status response used to witness the completed-path
theorem. -/
def demoResp : StatusResponse :=
  ⟨"completed", some 100, some "Audio generation complete", some "/audio/demo.wav", none⟩

/-- Decidable contiguous-substring test on character lists, used to state
that no API endpoint mentions cancellation. -/
def containsSub (pat : List Char) : List Char → Bool
  | [] => pat.isEmpty
  | c :: cs => pat.isPrefixOf (c :: cs) || containsSub pat cs

/-!
Theorems.  Each claim of the specification review is settled below; helper
lemmas precede the claim-level theorems they support.
-/

/-- Claim C1, counterexample: a status response carrying `cancelled` does
not stop the poll loop — `pollStatus` only breaks on `completed` and
`failed`, so a `cancelled` response falls into the final branch and
re-schedules the next poll. -/
theorem pollStep_cancelled_reschedules :
    (pollStep "http://localhost:8000" startState
      ⟨"cancelled", some 50, some "Cancelling", none, none⟩).pollScheduled = true := by
  decide

/-- Claim C1 (amended): the client's poll loop, which re-schedules itself
every 1 second otherwise, stops exactly when the reported status is
`completed` or `failed`; any other status — including `cancelled` — causes
a further poll to be scheduled. -/
theorem pollStep_stops_iff_completed_or_failed
    (apiUrl : String) (s : ClientState) (r : StatusResponse) :
    (pollStep apiUrl s r).pollScheduled = false ↔
      r.status = "completed" ∨ r.status = "failed" := by
  unfold pollStep
  by_cases h1 : r.status = "completed"
  · simp [h1]
  · by_cases h2 : r.status = "failed"
    · simp [h1, h2]
    · simp [h1, h2]

/-- Claim C2, counterexample: `cancelled` is not among the status strings
admitted by the client's `AudioGenerationTask.status` type. -/
theorem cancelled_not_representable :
    "cancelled" ∉ audioTaskStatusValues := by
  decide

/-- Claim C2 (amended): the status of a narration task at the client's
public interface lies in the four-value set
{pending, processing, completed, failed}; `cancelled` is not a
representable task status. -/
theorem audioTaskStatus_exactly_four_values :
    audioTaskStatusValues = ["pending", "processing", "completed", "failed"]
    ∧ "cancelled" ∉ audioTaskStatusValues := by
  exact ⟨rfl, by decide⟩

/-- Claim C3, counterexample: the caller-facing API surface contains no
cancel operation — no exported endpoint function's name or URL path
mentions `cancel` — and the component's cancel action issues no network
request at all. -/
theorem no_cancel_endpoint :
    (apiClientEndpoints.all fun e =>
      !(containsSub "cancel".data e.name.data)
        && !(containsSub "cancel".data e.path.data)) = true
    ∧ (handleCancelGeneration startState).2 = [] := by
  exact ⟨by decide, rfl⟩

/-- Claim C3 (amended): the client exposes no `cancel(taskId)` API call;
invoking the cancel action only halts the local polling loop and resets
local UI state (generation flag, progress, step message), sending nothing
to the backend. -/
theorem handleCancelGeneration_local_only (s : ClientState) :
    (handleCancelGeneration s).2 = []
    ∧ (handleCancelGeneration s).1 =
        { s with pollScheduled := false, isGenerating := false,
                 progress := 0, progressMessage := "" }
    ∧ (apiClientEndpoints.all fun e =>
        !(containsSub "cancel".data e.name.data)
          && !(containsSub "cancel".data e.path.data)) = true := by
  exact ⟨rfl, rfl, by decide⟩

/-- Claim C10: when a poll reports `completed` with a defined `audio_url`,
the client sets the playable URL to `audio_url` unchanged if it starts with
"http" and to the API base URL concatenated with `audio_url` otherwise, and
in the same step stops polling. -/
theorem pollStep_completed_sets_url
    (apiUrl : String) (s : ClientState) (r : StatusResponse) (u : String)
    (hst : r.status = "completed") (hurl : r.audio_url = some u) :
    (pollStep apiUrl s r).audioUrl
      = some (if strStartsWith u "http" then u else apiUrl ++ u)
    ∧ (pollStep apiUrl s r).pollScheduled = false := by
  unfold pollStep resolveAudioUrl
  rw [hurl]
  simp [hst]

/-- Claim C10, witness: concrete completed response with a relative
`audio_url`; the playable URL becomes the API base URL followed by the
path, and polling stops. -/
theorem pollStep_completed_sets_url_witness :
    (pollStep "http://localhost:8000" startState demoResp).audioUrl
      = some "http://localhost:8000/audio/demo.wav"
    ∧ (pollStep "http://localhost:8000" startState demoResp).pollScheduled = false := by
  have h := pollStep_completed_sets_url "http://localhost:8000" startState demoResp
    "/audio/demo.wav" rfl rfl
  rw [if_neg (by decide)] at h
  simpa using h

theorem wordsOf_space_cons {c : Char} (h : isSpaceChar c = true) (l : List Char) :
    wordsOf (c :: l) = wordsOf l := by
  cases l with
  | nil => simp [wordsOf, h]
  | cons d cs => simp [wordsOf, h]

theorem wordsOf_word_append : ∀ (w l : List Char), w ≠ [] →
    (∀ c ∈ w, isSpaceChar c = false) →
    (∀ c, l.head? = some c → isSpaceChar c = true) →
    wordsOf (w ++ l) = w :: wordsOf l := by
  intro w
  induction w with
  | nil => intro l h; cases h rfl
  | cons c w' ih =>
    intro l _ hall hl
    have hc : isSpaceChar c = false := hall c (by simp)
    cases w' with
    | nil =>
      cases l with
      | nil => simp [wordsOf, hc]
      | cons e l' =>
        have he : isSpaceChar e = true := hl e rfl
        simp [wordsOf, hc, he]
    | cons d w'' =>
      have hd : isSpaceChar d = false := hall d (by simp)
      have ih' := ih l (by simp) (fun x hx => hall x (by simp [hx])) hl
      simp only [List.cons_append] at ih' ⊢
      rw [wordsOf, if_neg (by simp [hc]), if_neg (by simp [hd]), ih']

theorem wordsOf_wf : ∀ (l : List Char), ∀ w ∈ wordsOf l,
    w ≠ [] ∧ ∀ c ∈ w, isSpaceChar c = false := by
  intro l
  induction l using wordsOf.induct with
  | case1 => intro w hw; simp [wordsOf] at hw
  | case2 c h => intro w hw; simp [wordsOf, h] at hw
  | case3 c h =>
    intro w hw
    simp [wordsOf, h] at hw
    subst hw
    exact ⟨by simp, by intro x hx; simp at hx; subst hx; simpa using h⟩
  | case4 c d cs h ih =>
    intro w hw
    rw [wordsOf, if_pos h] at hw
    exact ih w hw
  | case5 c d cs hc hd ih =>
    intro w hw
    rw [wordsOf, if_neg (by simp [hc]), if_pos hd] at hw
    rcases List.mem_cons.mp hw with h1 | h1
    · subst h1
      exact ⟨by simp, by intro x hx; simp at hx; subst hx; simpa using hc⟩
    · exact ih w h1
  | case6 c d cs hc hd heq =>
    intro w hw
    rw [wordsOf, if_neg (by simp [hc]), if_neg (by simp [hd]), heq] at hw
    simp at hw
    subst hw
    exact ⟨by simp, by intro x hx; simp at hx; subst hx; simpa using hc⟩
  | case7 c d cs hc hd w' ws' heq ih =>
    intro w hw
    rw [wordsOf, if_neg (by simp [hc]), if_neg (by simp [hd]), heq] at hw
    rcases List.mem_cons.mp hw with h1 | h1
    · subst h1
      have hw' := ih w' (by rw [heq]; simp)
      refine ⟨by simp, ?_⟩
      intro x hx
      rcases List.mem_cons.mp hx with h2 | h2
      · subst h2; simpa using hc
      · exact hw'.2 x h2
    · exact (ih w (by rw [heq]; simp [h1]))

theorem wordsOf_joinSp : ∀ (ch : List (List Char)), ch ≠ [] →
    (∀ w ∈ ch, w ≠ [] ∧ ∀ c ∈ w, isSpaceChar c = false) →
    wordsOf (joinSp ch) = ch := by
  intro ch
  induction ch with
  | nil => intro h; cases h rfl
  | cons w ws ih =>
    intro _ hwf
    cases ws with
    | nil =>
      have hw := hwf w (by simp)
      have h2 := wordsOf_word_append w [] hw.1 hw.2 (by intro c hc; simp at hc)
      simpa [joinSp, wordsOf] using h2
    | cons w' ws' =>
      have hw := hwf w (by simp)
      rw [joinSp]
      rw [wordsOf_word_append w (' ' :: joinSp (w' :: ws')) hw.1 hw.2
        (by intro c hc; simp at hc; subst hc; rfl)]
      rw [wordsOf_space_cons (by decide)]
      rw [ih (by simp) (fun x hx => hwf x (by simp [hx]))]

theorem joinSp_length : ∀ (ch : List (List Char)), (joinSp ch).length = joinLen ch := by
  intro ch
  induction ch with
  | nil => simp [joinSp, joinLen]
  | cons w ws ih =>
    cases ws with
    | nil => simp [joinSp, joinLen]
    | cons w' ws' =>
      rw [joinSp]
      simp only [joinLen, List.map_cons, List.sum_cons, List.length_cons,
        List.length_append] at ih ⊢
      omega

theorem packAux_flatten (maxC : Nat) : ∀ (ws cur : List (List Char)) (curLen : Nat),
    (packAux maxC cur curLen ws).flatten = cur.reverse ++ ws := by
  intro ws
  induction ws with
  | nil => intro cur curLen; simp [packAux]
  | cons w ws ih =>
    intro cur curLen
    rw [packAux]
    by_cases h : curLen + 1 + w.length ≤ maxC
    · rw [if_pos h, ih]
      simp
    · rw [if_neg h]
      simp [ih]

theorem packAux_ne_nil (maxC : Nat) : ∀ (ws cur : List (List Char)) (curLen : Nat),
    packAux maxC cur curLen ws ≠ [] := by
  intro ws
  induction ws with
  | nil => intro cur curLen; simp [packAux]
  | cons w ws ih =>
    intro cur curLen
    rw [packAux]
    by_cases h : curLen + 1 + w.length ≤ maxC
    · rw [if_pos h]; exact ih _ _
    · rw [if_neg h]; simp

theorem packAux_mem_ne_nil (maxC : Nat) : ∀ (ws cur : List (List Char)) (curLen : Nat),
    cur ≠ [] → ∀ ch ∈ packAux maxC cur curLen ws, ch ≠ [] := by
  intro ws
  induction ws with
  | nil =>
    intro cur curLen hcur ch hch
    simp [packAux] at hch
    subst hch
    simpa using hcur
  | cons w ws ih =>
    intro cur curLen hcur ch hch
    rw [packAux] at hch
    by_cases h : curLen + 1 + w.length ≤ maxC
    · rw [if_pos h] at hch
      exact ih _ _ (by simp) ch hch
    · rw [if_neg h] at hch
      rcases List.mem_cons.mp hch with h1 | h1
      · subst h1; simpa using hcur
      · exact ih _ _ (by simp) ch h1

theorem joinLen_reverse (c : List (List Char)) : joinLen c.reverse = joinLen c := by
  simp [joinLen, List.sum_reverse]

theorem goodChunk_reverse {maxC : Nat} {c : List (List Char)} (h : goodChunk maxC c) :
    goodChunk maxC c.reverse := by
  rcases h with h | ⟨w, hw, hlen⟩
  · exact Or.inl (by rw [joinLen_reverse]; exact h)
  · exact Or.inr ⟨w, by rw [hw]; simp, hlen⟩

theorem packAux_good (maxC : Nat) : ∀ (ws cur : List (List Char)) (curLen : Nat),
    cur ≠ [] → curLen = joinLen cur → goodChunk maxC cur →
    ∀ ch ∈ packAux maxC cur curLen ws, goodChunk maxC ch := by
  intro ws
  induction ws with
  | nil =>
    intro cur curLen hcur hlen hgood ch hch
    simp [packAux] at hch
    subst hch
    exact goodChunk_reverse hgood
  | cons w ws ih =>
    intro cur curLen hcur hlen hgood ch hch
    rw [packAux] at hch
    by_cases h : curLen + 1 + w.length ≤ maxC
    · rw [if_pos h] at hch
      refine ih (w :: cur) _ (by simp) ?_ (Or.inl ?_) ch hch
      · have hpos : 0 < cur.length := List.length_pos.mpr hcur
        simp only [joinLen, List.map_cons, List.sum_cons, List.length_cons] at hlen ⊢
        omega
      · have hpos : 0 < cur.length := List.length_pos.mpr hcur
        simp only [joinLen, List.map_cons, List.sum_cons, List.length_cons] at hlen ⊢
        omega
    · rw [if_neg h] at hch
      rcases List.mem_cons.mp hch with h1 | h1
      · subst h1; exact goodChunk_reverse hgood
      · refine ih [w] _ (by simp) (by simp [joinLen]) ?_ ch h1
        by_cases hw : w.length ≤ maxC
        · exact Or.inl (by simp [joinLen, hw])
        · exact Or.inr ⟨w, rfl, by omega⟩

/-- Claim C4: for every input text and fixed `maxChunkChars`,
`Chunker.split` returns only chunks of length at most `maxChunkChars` —
except chunks consisting of a single word longer than the limit — and the
concatenation of the words of all chunks, in order, equals the word
sequence of the original text. -/
theorem chunker_split_bounded_and_word_preserving (text : List Char) (maxChunkChars : Nat) :
    (∀ ch ∈ split text maxChunkChars,
        ch.length ≤ maxChunkChars ∨ ∃ w, wordsOf ch = [w] ∧ maxChunkChars < w.length)
    ∧ ((split text maxChunkChars).map wordsOf).flatten = wordsOf text := by
  by_cases htext : text = []
  · subst htext; simp [split, wordsOf]
  · rw [split, if_neg htext]
    cases hw : wordsOf text with
    | nil =>
      constructor
      · intro ch hch; simp at hch; subst hch; exact Or.inl (by simp)
      · simp [wordsOf]
    | cons w ws =>
      have hwf : ∀ x ∈ w :: ws, x ≠ [] ∧ ∀ c ∈ x, isSpaceChar c = false := by
        rw [← hw]; exact fun x hx => wordsOf_wf text x hx
      have hflat : (packAux maxChunkChars [w] w.length ws).flatten = w :: ws := by
        rw [packAux_flatten]; simp
      have hmemwords : ∀ ch ∈ packAux maxChunkChars [w] w.length ws,
          ∀ x ∈ ch, x ∈ w :: ws := by
        intro ch hch x hx
        rw [← hflat]
        exact List.mem_flatten_of_mem hch hx
      have hne : ∀ ch ∈ packAux maxChunkChars [w] w.length ws, ch ≠ [] :=
        packAux_mem_ne_nil maxChunkChars ws [w] w.length (by simp)
      have hgood : ∀ ch ∈ packAux maxChunkChars [w] w.length ws,
          goodChunk maxChunkChars ch := by
        refine packAux_good maxChunkChars ws [w] w.length (by simp) (by simp [joinLen]) ?_
        by_cases hlw : w.length ≤ maxChunkChars
        · exact Or.inl (by simp [joinLen, hlw])
        · exact Or.inr ⟨w, rfl, by omega⟩
      constructor
      · intro ch hch
        simp only [packWords] at hch
        simp only [List.mem_map] at hch
        obtain ⟨ck, hck, rfl⟩ := hch
        rcases hgood ck hck with hb | ⟨w', hw', hlw'⟩
        · exact Or.inl (by rw [joinSp_length]; exact hb)
        · subst hw'
          refine Or.inr ⟨w', ?_, hlw'⟩
          have hwfw : w' ≠ [] ∧ ∀ c ∈ w', isSpaceChar c = false :=
            hwf w' (hmemwords [w'] hck w' (by simp))
          have h2 := wordsOf_word_append w' [] hwfw.1 hwfw.2 (by intro c hc; simp at hc)
          simpa [joinSp, wordsOf] using h2
      · simp only [packWords]
        rw [List.map_map]
        have hcongr : (packAux maxChunkChars [w] w.length ws).map (wordsOf ∘ joinSp)
            = (packAux maxChunkChars [w] w.length ws).map id := by
          apply List.map_congr_left
          intro ck hck
          simp only [Function.comp_apply, id_eq]
          exact wordsOf_joinSp ck (hne ck hck) (fun x hx => hwf x (hmemwords ck hck x hx))
        rw [hcongr, List.map_id, hflat]

/-- Claim C4, witness: splitting "ab cd" with limit 2 produces the chunk
"ab", which respects the bound, and the word sequence is preserved. -/
theorem chunker_split_bounded_witness :
    ("ab".data.length ≤ 2 ∨ ∃ w, wordsOf "ab".data = [w] ∧ 2 < w.length)
    ∧ ((split "ab cd".data 2).map wordsOf).flatten = wordsOf "ab cd".data :=
  ⟨(chunker_split_bounded_and_word_preserving "ab cd".data 2).1 "ab".data (by decide),
   (chunker_split_bounded_and_word_preserving "ab cd".data 2).2⟩

/-- Claim C5: `Chunker.split` returns a non-empty sequence for every
non-empty input text and the empty sequence for empty input, and the
Orchestrator completes a zero-chunk task as a no-op success. -/
theorem chunker_split_nonempty :
    (∀ (text : List Char) (maxChunkChars : Nat), text ≠ [] →
      split text maxChunkChars ≠ [])
    ∧ (∀ maxChunkChars, split [] maxChunkChars = [])
    ∧ Relation.ReflTransGen OrchStep (initTask 0)
        ⟨TaskStatus.completed, [], 0⟩ := by
  refine ⟨?_, ?_, ?_⟩
  · intro text maxC htext
    rw [split, if_neg htext]
    cases wordsOf text with
    | nil => simp
    | cons w ws =>
      simp only [packWords, ne_eq, List.map_eq_nil_iff]
      exact packAux_ne_nil maxC ws [w] w.length
  · intro maxC; simp [split]
  · exact Relation.ReflTransGen.single (OrchStep.completeEmpty (initTask 0) rfl rfl)

/-- Claim C5, witness: "hi" splits into a non-empty sequence, the empty
text splits into the empty sequence, and the zero-chunk task reaches
`completed`. -/
theorem chunker_split_nonempty_witness :
    split "hi".data 5 ≠ [] ∧ split [] 5 = []
    ∧ Relation.ReflTransGen OrchStep (initTask 0)
        ⟨TaskStatus.completed, [], 0⟩ :=
  ⟨chunker_split_nonempty.1 "hi".data 5 (by decide),
   chunker_split_nonempty.2.1 5, chunker_split_nonempty.2.2⟩


theorem countP_set_same {α : Type} (p : α → Bool) :
    ∀ (l : List α) (i : Nat) (a b : α), l[i]? = some a → p a = p b →
      (l.set i b).countP p = l.countP p := by
  intro l
  induction l with
  | nil => intro i a b h; simp at h
  | cons x xs ih =>
    intro i a b h hp
    cases i with
    | zero =>
      simp at h
      subst h
      simp [List.countP_cons, hp]
    | succ j =>
      simp only [List.getElem?_cons_succ] at h
      simp only [List.set_cons_succ, List.countP_cons]
      rw [ih j a b h hp]

theorem succCount_replicate_queued (n : Nat) :
    succCount (List.replicate n ChunkState.queued) = 0 := by
  induction n with
  | zero => rfl
  | succ n ih =>
    simp only [List.replicate_succ, succCount, List.countP_cons] at ih ⊢
    simp [ih]

theorem orchStep_preserves_inv {t t' : NarrationTask} (h : OrchStep t t')
    (hp : t.progress = 100 * (succCount t.chunks : ℚ) / (t.chunks.length : ℚ))
    (_hc : t.status = TaskStatus.completed → ∀ c ∈ t.chunks, c = ChunkState.succeeded) :
    t'.progress = 100 * (succCount t'.chunks : ℚ) / (t'.chunks.length : ℚ)
    ∧ (t'.status = TaskStatus.completed → ∀ c ∈ t'.chunks, c = ChunkState.succeeded) := by
  cases h with
  | dispatchFirst i hst hq =>
    refine ⟨?_, by intro hcc; simp at hcc⟩
    have hcnt : succCount (t.chunks.set i ChunkState.submitted) = succCount t.chunks :=
      countP_set_same _ t.chunks i ChunkState.queued ChunkState.submitted hq rfl
    simpa [hcnt] using hp
  | dispatchNext i hst hq =>
    refine ⟨?_, by intro hcc; simp at hcc⟩
    have hcnt : succCount (t.chunks.set i ChunkState.submitted) = succCount t.chunks :=
      countP_set_same _ t.chunks i ChunkState.queued ChunkState.submitted hq rfl
    simpa [hcnt] using hp
  | startPoll i hst hq =>
    refine ⟨?_, by intro hcc; simp at hcc⟩
    have hcnt : succCount (t.chunks.set i ChunkState.polling) = succCount t.chunks :=
      countP_set_same _ t.chunks i ChunkState.submitted ChunkState.polling hq rfl
    simpa [hcnt] using hp
  | chunkSucceed i hst hq =>
    exact ⟨rfl, by intro hcc; simp at hcc⟩
  | chunkFail i hst hq =>
    exact ⟨rfl, by intro hcc; simp at hcc⟩
  | complete hst hall =>
    exact ⟨hp, fun _ => hall⟩
  | failTask hst hmem =>
    exact ⟨hp, by intro hcc; simp at hcc⟩
  | cancel hst =>
    exact ⟨hp, by intro hcc; simp at hcc⟩
  | embedFail hst =>
    exact ⟨hp, by intro hcc; simp at hcc⟩
  | completeEmpty hst hemp =>
    exact ⟨hp, by intro _ c hcm; rw [hemp] at hcm; cases hcm⟩

theorem reachable_inv {t : NarrationTask} (h : Reachable t) :
    t.progress = 100 * (succCount t.chunks : ℚ) / (t.chunks.length : ℚ)
    ∧ (t.status = TaskStatus.completed → ∀ c ∈ t.chunks, c = ChunkState.succeeded) := by
  obtain ⟨n, hr⟩ := h
  induction hr with
  | refl =>
    constructor
    · simp [initTask, succCount_replicate_queued]
    · intro hcc; simp [initTask] at hcc
  | tail hr hstep ih => exact orchStep_preserves_inv hstep ih.1 ih.2

theorem demoTask_reachable : Reachable demoTask := by
  refine ⟨1, ?_⟩
  have h1 : OrchStep (initTask 1)
      ⟨TaskStatus.processing, [ChunkState.submitted], 0⟩ :=
    OrchStep.dispatchFirst (initTask 1) 0 rfl rfl
  have h2 : OrchStep ⟨TaskStatus.processing, [ChunkState.submitted], 0⟩
      ⟨TaskStatus.processing, [ChunkState.polling], 0⟩ :=
    OrchStep.startPoll _ 0 rfl rfl
  have h3 : OrchStep ⟨TaskStatus.processing, [ChunkState.polling], 0⟩
      ⟨TaskStatus.processing, [ChunkState.succeeded],
        progressOf [ChunkState.succeeded]⟩ :=
    OrchStep.chunkSucceed _ 0 rfl rfl
  have h4 : OrchStep
      ⟨TaskStatus.processing, [ChunkState.succeeded],
        progressOf [ChunkState.succeeded]⟩ demoTask :=
    OrchStep.complete _ rfl (by intro c hcm; simpa using hcm)
  exact Relation.ReflTransGen.head h1 (Relation.ReflTransGen.head h2
    (Relation.ReflTransGen.head h3 (Relation.ReflTransGen.single h4)))

/-- Claim C8: in every reachable state of a NarrationTask, the status is
`completed` only if every one of its ChunkJobs reached `succeeded`. -/
theorem task_completed_implies_all_succeeded (t : NarrationTask)
    (h : Reachable t) (hcomp : t.status = TaskStatus.completed) :
    ∀ c ∈ t.chunks, c = ChunkState.succeeded :=
  (reachable_inv h).2 hcomp

/-- Claim C8, witness: the concrete reachable completed one-chunk task has
its (only) chunk in the `succeeded` state. -/
theorem task_completed_implies_all_succeeded_witness :
    ChunkState.succeeded = ChunkState.succeeded :=
  task_completed_implies_all_succeeded demoTask demoTask_reachable rfl
    ChunkState.succeeded (by decide)

/-- Claim C9: in every reachable task state — in particular after each
ChunkJob terminal transition — the aggregate progress equals
(succeeded chunk count / total chunk count) × 100, and a completed task
with at least one chunk has progress exactly 100. -/
theorem task_progress_formula (t : NarrationTask) (h : Reachable t) :
    t.progress = 100 * (succCount t.chunks : ℚ) / (t.chunks.length : ℚ)
    ∧ (t.status = TaskStatus.completed → t.chunks ≠ [] → t.progress = 100) := by
  refine ⟨(reachable_inv h).1, ?_⟩
  intro hcomp hne
  have hall := (reachable_inv h).2 hcomp
  have hsc : succCount t.chunks = t.chunks.length := by
    rw [succCount, List.countP_eq_length]
    intro a ha
    simpa using hall a ha
  have hn : (t.chunks.length : ℚ) ≠ 0 := by
    have : t.chunks.length ≠ 0 := by
      simpa [List.length_eq_zero] using hne
    exact_mod_cast this
  rw [(reachable_inv h).1, hsc, mul_div_assoc, div_self hn, mul_one]

/-- Claim C9, witness: the concrete reachable completed one-chunk task has
progress exactly 100. -/
theorem task_progress_formula_witness : demoTask.progress = 100 :=
  (task_progress_formula demoTask demoTask_reachable).2 rfl (by decide)


theorem cacheRun_append (s : CacheState) (l1 l2 : List CacheEvent) :
    cacheRun s (l1 ++ l2) = cacheRun (cacheRun s l1) l2 := by
  induction l1 generalizing s with
  | nil => simp [cacheRun]
  | cons e es ih => simp [cacheRun, ih]

theorem cacheRun_arrivals_join (k : String) :
    ∀ (callers : List Nat) (s : CacheState) (ws : List Nat),
      s.store k = none → s.inflight k = some ws →
      (cacheRun s (arrivalsFor k callers)).store = s.store
      ∧ (cacheRun s (arrivalsFor k callers)).inflight k
          = some (callers.reverse ++ ws)
      ∧ (cacheRun s (arrivalsFor k callers)).invocations = s.invocations
      ∧ (cacheRun s (arrivalsFor k callers)).results = s.results := by
  intro callers
  induction callers with
  | nil =>
    intro s ws h1 h2
    simp [arrivalsFor, cacheRun, h2]
  | cons c cs ih =>
    intro s ws h1 h2
    have hstep : cacheStep s (CacheEvent.arrive c k)
        = { s with inflight := Function.update s.inflight k (some (c :: ws)) } := by
      simp [cacheStep, h1, h2]
    have hrun : cacheRun s (arrivalsFor k (c :: cs))
        = cacheRun { s with inflight := Function.update s.inflight k (some (c :: ws)) }
            (arrivalsFor k cs) := by
      simp [arrivalsFor, cacheRun] at hstep ⊢
      rw [hstep]
    have ih2 := ih { s with inflight := Function.update s.inflight k (some (c :: ws)) }
      (c :: ws) h1 (Function.update_same k (some (c :: ws)) s.inflight)
    rw [hrun]
    refine ⟨ih2.1, ?_, ih2.2.2.1, ih2.2.2.2⟩
    rw [ih2.2.1]
    simp

/-- Claim C6: for every key and every list of concurrent cache misses on
that key, `getOrCompute` invokes the compute function exactly once (the
per-key invocation count rises by exactly one over the whole run) and
every caller receives the same embedding. -/
theorem cache_coalesces_concurrent_misses (s : CacheState) (k : String)
    (callers : List Nat) (v : Nat)
    (hstore : s.store k = none) (hinfl : s.inflight k = none)
    (hne : callers ≠ []) :
    (cacheRun s (arrivalsFor k callers
        ++ [CacheEvent.complete k v])).invocations k = s.invocations k + 1
    ∧ ∀ i ∈ callers,
        (cacheRun s (arrivalsFor k callers
          ++ [CacheEvent.complete k v])).results i = some (Except.ok v) := by
  obtain ⟨c, cs, rfl⟩ := List.exists_cons_of_ne_nil hne
  rw [cacheRun_append]
  have hstep : cacheStep s (CacheEvent.arrive c k)
      = { s with inflight := Function.update s.inflight k (some [c]),
                 invocations := Function.update s.invocations k
                   (s.invocations k + 1) } := by
    simp [cacheStep, hstore, hinfl]
  have hrun : cacheRun s (arrivalsFor k (c :: cs))
      = cacheRun { s with inflight := Function.update s.inflight k (some [c]),
                          invocations := Function.update s.invocations k
                            (s.invocations k + 1) } (arrivalsFor k cs) := by
    simp [arrivalsFor, cacheRun] at hstep ⊢
    rw [hstep]
  have hmid := cacheRun_arrivals_join k cs
    { s with inflight := Function.update s.inflight k (some [c]),
             invocations := Function.update s.invocations k (s.invocations k + 1) }
    [c] hstore (Function.update_same k (some [c]) s.inflight)
  rw [hrun]
  have hinfl2 := hmid.2.1
  have hcomp : cacheStep (cacheRun
      { s with inflight := Function.update s.inflight k (some [c]),
               invocations := Function.update s.invocations k (s.invocations k + 1) }
      (arrivalsFor k cs)) (CacheEvent.complete k v)
      = { cacheRun
            { s with inflight := Function.update s.inflight k (some [c]),
                     invocations := Function.update s.invocations k
                       (s.invocations k + 1) }
            (arrivalsFor k cs) with
          store := Function.update (cacheRun
            { s with inflight := Function.update s.inflight k (some [c]),
                     invocations := Function.update s.invocations k
                       (s.invocations k + 1) }
            (arrivalsFor k cs)).store k (some v),
          inflight := Function.update (cacheRun
            { s with inflight := Function.update s.inflight k (some [c]),
                     invocations := Function.update s.invocations k
                       (s.invocations k + 1) }
            (arrivalsFor k cs)).inflight k none,
          results := fun i => if i ∈ cs.reverse ++ [c] then some (Except.ok v)
            else (cacheRun
              { s with inflight := Function.update s.inflight k (some [c]),
                       invocations := Function.update s.invocations k
                         (s.invocations k + 1) }
              (arrivalsFor k cs)).results i } := by
    simp [cacheRun, cacheStep, hinfl2]
  constructor
  · simp only [cacheRun, hcomp]
    rw [hmid.2.2.1]
    exact Function.update_same k (s.invocations k + 1) s.invocations
  · intro i hi
    simp only [cacheRun, hcomp]
    have : i ∈ cs.reverse ++ [c] := by
      rcases List.mem_cons.mp hi with h | h
      · simp [h]
      · simp [h]
    simp [this]


/-- Claim C6, witness: three concurrent misses on the key "voice" cause a
single compute invocation, and caller 2 receives the computed value 42. -/
theorem cache_coalesces_concurrent_misses_witness :
    (cacheRun emptyCache (arrivalsFor "voice" [1, 2, 3]
        ++ [CacheEvent.complete "voice" 42])).invocations "voice"
      = emptyCache.invocations "voice" + 1
    ∧ (cacheRun emptyCache (arrivalsFor "voice" [1, 2, 3]
        ++ [CacheEvent.complete "voice" 42])).results 2
      = some (Except.ok 42) :=
  ⟨(cache_coalesces_concurrent_misses emptyCache "voice" [1, 2, 3] 42
      rfl rfl (by decide)).1,
   (cache_coalesces_concurrent_misses emptyCache "voice" [1, 2, 3] 42
      rfl rfl (by decide)).2 2 (by decide)⟩

/-- Claim C7: if the compute function fails during `getOrCompute`, the
store is unchanged (nothing is cached), the error propagates to every
waiting caller, and a subsequent call for the same key re-invokes the
compute function. -/
theorem cache_failure_not_cached (s : CacheState) (k : String)
    (callers : List Nat) (e : String) (j : Nat)
    (hstore : s.store k = none) (hinfl : s.inflight k = none)
    (hne : callers ≠ []) :
    (cacheRun s (arrivalsFor k callers ++ [CacheEvent.fail k e])).store = s.store
    ∧ (∀ i ∈ callers,
        (cacheRun s (arrivalsFor k callers
          ++ [CacheEvent.fail k e])).results i = some (Except.error e))
    ∧ (cacheStep (cacheRun s (arrivalsFor k callers ++ [CacheEvent.fail k e]))
        (CacheEvent.arrive j k)).invocations k
      = (cacheRun s (arrivalsFor k callers
          ++ [CacheEvent.fail k e])).invocations k + 1 := by
  obtain ⟨c, cs, rfl⟩ := List.exists_cons_of_ne_nil hne
  rw [cacheRun_append]
  have hstep : cacheStep s (CacheEvent.arrive c k)
      = { s with inflight := Function.update s.inflight k (some [c]),
                 invocations := Function.update s.invocations k
                   (s.invocations k + 1) } := by
    simp [cacheStep, hstore, hinfl]
  have hrun : cacheRun s (arrivalsFor k (c :: cs))
      = cacheRun { s with inflight := Function.update s.inflight k (some [c]),
                          invocations := Function.update s.invocations k
                            (s.invocations k + 1) } (arrivalsFor k cs) := by
    simp [arrivalsFor, cacheRun] at hstep ⊢
    rw [hstep]
  have hmid := cacheRun_arrivals_join k cs
    { s with inflight := Function.update s.inflight k (some [c]),
             invocations := Function.update s.invocations k (s.invocations k + 1) }
    [c] hstore (Function.update_same k (some [c]) s.inflight)
  rw [hrun]
  have hinfl2 := hmid.2.1
  have hfail : cacheStep (cacheRun
      { s with inflight := Function.update s.inflight k (some [c]),
               invocations := Function.update s.invocations k (s.invocations k + 1) }
      (arrivalsFor k cs)) (CacheEvent.fail k e)
      = { cacheRun
            { s with inflight := Function.update s.inflight k (some [c]),
                     invocations := Function.update s.invocations k
                       (s.invocations k + 1) }
            (arrivalsFor k cs) with
          inflight := Function.update (cacheRun
            { s with inflight := Function.update s.inflight k (some [c]),
                     invocations := Function.update s.invocations k
                       (s.invocations k + 1) }
            (arrivalsFor k cs)).inflight k none,
          results := fun i => if i ∈ cs.reverse ++ [c] then some (Except.error e)
            else (cacheRun
              { s with inflight := Function.update s.inflight k (some [c]),
                       invocations := Function.update s.invocations k
                         (s.invocations k + 1) }
              (arrivalsFor k cs)).results i } := by
    simp [cacheRun, cacheStep, hinfl2]
  refine ⟨?_, ?_, ?_⟩
  · simp only [cacheRun, hfail]
    rw [hmid.1]
  · intro i hi
    simp only [cacheRun, hfail]
    have : i ∈ cs.reverse ++ [c] := by
      rcases List.mem_cons.mp hi with h | h
      · simp [h]
      · simp [h]
    simp [this]
  · simp only [cacheRun, hfail]
    have hst2 : (cacheRun
        { s with inflight := Function.update s.inflight k (some [c]),
                 invocations := Function.update s.invocations k
                   (s.invocations k + 1) }
        (arrivalsFor k cs)).store k = none := by
      rw [hmid.1]
      exact hstore
    simp [cacheStep, hst2, Function.update_same]

/-- Claim C7, witness: two coalesced misses on "voice" whose computation
fails leave the store untouched, deliver the error to caller 1, and a later
arrival triggers a fresh compute invocation. -/
theorem cache_failure_not_cached_witness :
    (cacheRun emptyCache (arrivalsFor "voice" [1, 2]
        ++ [CacheEvent.fail "voice" "gpu down"])).store = emptyCache.store
    ∧ (cacheRun emptyCache (arrivalsFor "voice" [1, 2]
        ++ [CacheEvent.fail "voice" "gpu down"])).results 1
      = some (Except.error "gpu down")
    ∧ (cacheStep (cacheRun emptyCache (arrivalsFor "voice" [1, 2]
          ++ [CacheEvent.fail "voice" "gpu down"])) (CacheEvent.arrive 7 "voice")).invocations "voice"
      = (cacheRun emptyCache (arrivalsFor "voice" [1, 2]
          ++ [CacheEvent.fail "voice" "gpu down"])).invocations "voice" + 1 :=
  ⟨(cache_failure_not_cached emptyCache "voice" [1, 2] "gpu down" 7
      rfl rfl (by decide)).1,
   (cache_failure_not_cached emptyCache "voice" [1, 2] "gpu down" 7
      rfl rfl (by decide)).2.1 1 (by decide),
   (cache_failure_not_cached emptyCache "voice" [1, 2] "gpu down" 7
      rfl rfl (by decide)).2.2⟩

end VoiceClone
